import Mathlib

/-!
Verification of the Plet template-language lexer
(`src/doc/pygments/lexers.py`): a mode-stack scanner over ordered rule
tables.  The rule tables (regular expressions, token types, stack
actions) are translated rule by rule from the source; the driver loop is
modelled from the specification, since the generic driver is library
code that is not part of this repository.
-/

namespace Plet

/-- Token kinds: one constructor per Pygments token type that occurs in
the rule tables of `src/doc/pygments/lexers.py`, plus the unclassified
error kind emitted when no rule matches. -/
inductive K where
  | commentMultiline
  | commentSingle
  | keyword
  | keywordConstant
  | stringSingle
  | number
  | name
  | oper
  | punctuation
  | commentPreproc
  | str
  | whitespace
  | other
  | error
deriving DecidableEq, Repr

/-- Lexer states: the keys of `PletLexer.tokens` together with
`txtRoot`, the overriding `root` state of `TxtPletLexer` (its other
states are inherited from `PletLexer`). -/
inductive S where
  | root
  | template
  | string
  | verbatim
  | statements
  | object
  | array
  | expression
  | txtRoot
deriving DecidableEq, Repr

/-- Stack action attached to a rule: stay in the current state, push a
new state, or pop the current state. -/
inductive Act where
  | stay
  | push (s : S)
  | pop
deriving DecidableEq, Repr

/-- The apostrophe character (delimiter of single-quoted strings). -/
def quoteChar : Char := Char.ofNat 39

/-- The backslash character (escape character in single-quoted strings). -/
def backslashChar : Char := Char.ofNat 92

/-- Word characters, as tested by the regex word-boundary assertion
`\b` (ASCII model of Python's `\w`). -/
def isWordChar (c : Char) : Bool := c.isAlpha || c.isDigit || c = '_'

/-- Whitespace characters matched by the regex class `\s`
(ASCII model: space, tab, newline, carriage return, vertical tab,
form feed). -/
def isSpaceChar (c : Char) : Bool :=
  c = ' ' || c = '\t' || c = '\n' || c = '\r' || c = Char.ofNat 11 || c = Char.ofNat 12

/-- A `\b` assertion holds before the current position (which carries a
word character) iff the previous character, if any, is not a word
character. -/
def wordBoundaryBefore : Option Char → Bool
  | none => true
  | some c => !isWordChar c

/-- A `\b` assertion holds after a word character iff the next
character, if any, is not a word character. -/
def wordBoundaryAfter : List Char → Bool
  | [] => true
  | c :: _ => !isWordChar c

/-- Length of the rest of a block comment after the opening `{#`: the
non-greedy `.*?\#\}` part of `\{\#.*?\#\}`.  `.` does not match a
newline, so the comment must close with `#}` on the same line; the
non-greedy star stops at the earliest `#}`. -/
def commentClose : List Char → Option Nat
  | c1 :: c2 :: rest =>
    if c1 = '#' ∧ c2 = '}' then some 2
    else if c1 = '\n' then none
    else (commentClose (c2 :: rest)).map (· + 1)
  | _ => none

/-- Matcher for the rule `(r'\{\#.*?\#\}', Comment.Multiline)`. -/
def matchBlockComment : List Char → Option Nat
  | [] => none
  | c1 :: rest1 =>
    if c1 = '{' then
      match rest1 with
      | [] => none
      | c2 :: rest => if c2 = '#' then (commentClose rest).map (· + 2) else none
    else none

/-- Length up to and including the first newline, for the non-greedy
`.*?\n` part of a line comment. -/
def lineClose : List Char → Option Nat
  | c :: cs => if c = '\n' then some 1 else (lineClose cs).map (· + 1)
  | [] => none

/-- Matcher for the rule `(r'#.*?\n', Comment.Single)`. -/
def matchLineComment : List Char → Option Nat
  | c :: cs => if c = '#' then (lineClose cs).map (· + 1) else none
  | [] => none

/-- The keyword alternatives of the rule on line 17 of the source, in
their declared order. -/
def keywordList : List (List Char) :=
  [ ['i', 'f'], ['t', 'h', 'e', 'n'], ['e', 'l', 's', 'e'], ['f', 'o', 'r'],
    ['i', 'n'], ['s', 'w', 'i', 't', 'c', 'h'], ['c', 'a', 's', 'e'],
    ['d', 'e', 'f', 'a', 'u', 'l', 't'], ['e', 'n', 'd'], ['a', 'n', 'd'],
    ['o', 'r'], ['n', 'o', 't'], ['d', 'o'], ['e', 'x', 'p', 'o', 'r', 't'],
    ['r', 'e', 't', 'u', 'r', 'n'], ['b', 'r', 'e', 'a', 'k'],
    ['c', 'o', 'n', 't', 'i', 'n', 'u', 'e'] ]

/-- The constant alternatives of the rule on line 18 of the source. -/
def constantList : List (List Char) :=
  [ ['t', 'r', 'u', 'e'], ['f', 'a', 'l', 's', 'e'], ['n', 'i', 'l'] ]

/-- One literal alternative followed by the trailing `\b` assertion. -/
def matchWord (kw : List Char) (l : List Char) : Option Nat :=
  if kw.isPrefixOf l && wordBoundaryAfter (l.drop kw.length) then some kw.length
  else none

/-- Matcher for `(if|then|else|for|in|switch|case|default|end|and|or|not|do|export|return|break|continue)\b`:
the alternatives are tried in declared order. -/
def matchKeyword (l : List Char) : Option Nat :=
  keywordList.findSome? fun kw => matchWord kw l

/-- Matcher for `(true|false|nil)\b`. -/
def matchConstant (l : List Char) : Option Nat :=
  constantList.findSome? fun kw => matchWord kw l

/-- The starred body of the single-quoted string regex
`'(\\\\|\\[^\\]|[^'\\])*'` after the opening quote, including the
closing quote: a backslash followed by any character is consumed as a
pair, any other character except the quote is consumed singly, and the
match succeeds exactly when the closing quote is reached. -/
def singleQuotedClose : List Char → Option Nat
  | [] => none
  | c :: cs =>
    if c = quoteChar then some 1
    else if c = backslashChar then
      match cs with
      | [] => none
      | _ :: cs2 => (singleQuotedClose cs2).map (· + 2)
    else (singleQuotedClose cs).map (· + 1)

/-- Matcher for the rule `(r"'(\\\\|\\[^\\]|[^'\\])*'", String.Single)`. -/
def matchSingleQuoted : List Char → Option Nat
  | c :: cs =>
    if c = quoteChar then (singleQuotedClose cs).map (· + 1) else none
  | [] => none

/-- Length of an optional fraction part `(\.[0-9]+)?` if present. -/
def fracPart (l : List Char) : Option Nat :=
  match l with
  | c :: cs =>
    if c = '.' then
      let d := (cs.takeWhile Char.isDigit).length
      if d = 0 then none else some (1 + d)
    else none
  | [] => none

/-- Length of an optional exponent part `([eE][-+]?[0-9]+)?` if
present.  If a sign is present it must be followed by at least one
digit (backtracking over the optional sign cannot succeed because the
sign itself is not a digit). -/
def expPart (l : List Char) : Option Nat :=
  match l with
  | c :: cs =>
    if c = 'e' ∨ c = 'E' then
      match cs with
      | s :: cs2 =>
        if s = '+' ∨ s = '-' then
          let d := (cs2.takeWhile Char.isDigit).length
          if d = 0 then none else some (2 + d)
        else
          let d := (cs.takeWhile Char.isDigit).length
          if d = 0 then none else some (1 + d)
      | [] => none
    else none
  | [] => none

/-- Matcher for `(r"\b[0-9]+(\.[0-9]+)?([eE][-+]?[0-9]+)?\b", Number)`.
Giving back digits from a `[0-9]+` run can never satisfy the following
assertion or component (the next character would be a digit), so the
only backtracking alternatives are presence or absence of the fraction
and exponent groups, tried in the regex engine's order and each
followed by the trailing `\b` check. -/
def matchNumber (prev : Option Char) (l : List Char) : Option Nat :=
  match l with
  | c :: _ =>
    if c.isDigit then
      if wordBoundaryBefore prev then
        let i := (l.takeWhile Char.isDigit).length
        let fr := fracPart (l.drop i)
        let exAfterFr :=
          match fr with
          | some f => expPart (l.drop (i + f))
          | none => none
        let exAfterInt := expPart (l.drop i)
        let cands :=
          (match fr, exAfterFr with
           | some f, some e => [i + f + e, i + f]
           | some f, none => [i + f]
           | none, _ => []) ++
          (match exAfterInt with
           | some e => [i + e]
           | none => []) ++ [i]
        cands.find? fun n => wordBoundaryAfter (l.drop n)
      else none
    else none
  | [] => none

/-- Matcher for `(r"\b[a-zA-Z_][a-zA-Z0-9_]*\b", Name)`: the leading
`\b` requires a non-word previous character, and the greedy word run
always ends at a non-word character or end of input, so the trailing
`\b` always holds. -/
def matchName (prev : Option Char) (l : List Char) : Option Nat :=
  match l with
  | c :: _ =>
    if c.isAlpha || c = '_' then
      if wordBoundaryBefore prev then some (l.takeWhile isWordChar).length
      else none
    else none
  | [] => none

/-- The literal alternatives of the operator rule
`(r'\+|-|\*|/|<=|>=|==|!=|<|>|=|\?', Operator)`, in declared order, so
the two-character operators are found before their one-character
prefixes. -/
def operatorAlts : List (List Char) :=
  [ ['+'], ['-'], ['*'], ['/'], ['<', '='], ['>', '='], ['=', '='],
    ['!', '='], ['<'], ['>'], ['='], ['?'] ]

/-- Matcher for the operator rule: the alternatives are tried in
declared order, each anchored at the current position. -/
def matchOperator (l : List Char) : Option Nat :=
  operatorAlts.findSome? fun alt =>
    if alt.isPrefixOf l then some alt.length else none

/-- Matcher for `(r'[\.,:|]', Punctuation)`. -/
def matchPunct : List Char → Option Nat
  | c :: _ => if c = '.' || c = ',' || c = ':' || c = '|' then some 1 else none
  | [] => none

/-- Matcher for a single literal character rule such as `\[` or `\}`. -/
def matchChar (ch : Char) : List Char → Option Nat
  | c :: _ => if c = ch then some 1 else none
  | [] => none

/-- Matcher for the rule `('"""', String, 'verbatim')` and the verbatim
closer `('"""', String, '#pop')`. -/
def matchTripleQuote : List Char → Option Nat
  | [] => none
  | c1 :: rest1 =>
    if c1 = '"' then
      match rest1 with
      | [] => none
      | c2 :: rest2 =>
        if c2 = '"' then
          match rest2 with
          | [] => none
          | c3 :: _ => if c3 = '"' then some 3 else none
        else none
    else none

/-- Matcher for `('\s+', Whitespace)`: a maximal nonempty run of
whitespace characters. -/
def matchSpace (l : List Char) : Option Nat :=
  if (l.takeWhile isSpaceChar).length = 0 then none
  else some (l.takeWhile isSpaceChar).length

/-- Characters allowed in a template-text chunk `[^{]+`. -/
def tplSafe (c : Char) : Bool := !(c = '{')

/-- Characters allowed in a quoted-string chunk `[^"{]+`. -/
def strSafe (c : Char) : Bool := !(c = '"' || c = '{')

/-- Matcher for `(r'[^{]+', ...)`: a maximal nonempty run of
non-brace characters. -/
def matchTplChunk (l : List Char) : Option Nat :=
  if (l.takeWhile tplSafe).length = 0 then none
  else some (l.takeWhile tplSafe).length

/-- Matcher for `(r'[^"{]+', String)`. -/
def matchStrChunk (l : List Char) : Option Nat :=
  if (l.takeWhile strSafe).length = 0 then none
  else some (l.takeWhile strSafe).length

/-- Matcher for the verbatim rule `(r'.', String)`: any single
character except a newline. -/
def matchDot : List Char → Option Nat
  | c :: _ => if c = '\n' then none else some 1
  | [] => none

/-- One rule of a state's table: an anchored matcher returning the
match length, the token kind to emit, and the stack action. -/
def Rule := (Option Char → List Char → Option Nat) × K × Act

/-- Try the rules of a table in declared order; first match wins. -/
def applyRules : List Rule → Option Char → List Char → Option (K × Nat × Act)
  | [], _, _ => none
  | (m, k, a) :: rs, p, l =>
    match m p l with
    | some n => some (k, n, a)
    | none => applyRules rs p l

/-- The `command` rule table (lines 14-31 of the source), in declared
order.  `root` consists of `include('command')` only. -/
def command : List Rule :=
  [ (fun _ l => matchBlockComment l, K.commentMultiline, Act.stay),
    (fun _ l => matchLineComment l, K.commentSingle, Act.stay),
    (fun _ l => matchKeyword l, K.keyword, Act.stay),
    (fun _ l => matchConstant l, K.keywordConstant, Act.stay),
    (fun _ l => matchSingleQuoted l, K.stringSingle, Act.stay),
    (matchNumber, K.number, Act.stay),
    (matchName, K.name, Act.stay),
    (fun _ l => matchOperator l, K.oper, Act.stay),
    (fun _ l => matchPunct l, K.punctuation, Act.stay),
    (fun _ l => matchChar '[' l, K.punctuation, Act.push S.array),
    (fun _ l => matchChar '(' l, K.punctuation, Act.push S.expression),
    (fun _ l => matchChar '{' l, K.punctuation, Act.push S.object),
    (fun _ l => matchChar '}' l, K.commentPreproc, Act.push S.template),
    (fun _ l => matchTripleQuote l, K.str, Act.push S.verbatim),
    (fun _ l => matchChar '"' l, K.str, Act.push S.string),
    (fun _ l => matchSpace l, K.whitespace, Act.stay) ]

/-- The `template` rule table (lines 32-36). -/
def templateRules : List Rule :=
  [ (fun _ l => matchTplChunk l, K.str, Act.stay),
    (fun _ l => matchBlockComment l, K.commentMultiline, Act.stay),
    (fun _ l => matchChar '{' l, K.commentPreproc, Act.pop) ]

/-- The `string` rule table (lines 37-42). -/
def stringRules : List Rule :=
  [ (fun _ l => matchStrChunk l, K.str, Act.stay),
    (fun _ l => matchBlockComment l, K.commentMultiline, Act.stay),
    (fun _ l => matchChar '{' l, K.commentPreproc, Act.push S.statements),
    (fun _ l => matchChar '"' l, K.str, Act.pop) ]

/-- The `verbatim` rule table (lines 43-46). -/
def verbatimRules : List Rule :=
  [ (fun _ l => matchTripleQuote l, K.str, Act.pop),
    (fun _ l => matchDot l, K.str, Act.stay) ]

/-- The overriding `root` table of `TxtPletLexer` (lines 70-76). -/
def txtRootRules : List Rule :=
  [ (fun _ l => matchTplChunk l, K.other, Act.stay),
    (fun _ l => matchBlockComment l, K.commentMultiline, Act.stay),
    (fun _ l => matchChar '{' l, K.commentPreproc, Act.push S.statements) ]

/-- Ordered rule table of each state.  `statements`, `object`, `array`
and `expression` consist of their own closer rule followed by
`include('command')` (lines 47-62). -/
def stateRules : S → Option Char → List Char → Option (K × Nat × Act)
  | S.root => applyRules command
  | S.template => applyRules templateRules
  | S.string => applyRules stringRules
  | S.verbatim => applyRules verbatimRules
  | S.statements =>
    applyRules ((fun _ l => matchChar '}' l, K.commentPreproc, Act.pop) :: command)
  | S.object =>
    applyRules ((fun _ l => matchChar '}' l, K.punctuation, Act.pop) :: command)
  | S.array =>
    applyRules ((fun _ l => matchChar ']' l, K.punctuation, Act.pop) :: command)
  | S.expression =>
    applyRules ((fun _ l => matchChar ')' l, K.punctuation, Act.pop) :: command)
  | S.txtRoot => applyRules txtRootRules

/-- Top of the mode stack (the stack is kept nonempty; the default is
never reached from a nonempty initial stack). -/
def topS : List S → S
  | [] => S.root
  | s :: _ => s

/-- Pop that never removes the outermost mode: popping a singleton
stack is a no-op. -/
def popS : List S → List S
  | [] => []
  | [s] => [s]
  | _ :: s :: rest => s :: rest

/-- Apply a rule's stack action. -/
def applyAct : Act → List S → List S
  | Act.stay, st => st
  | Act.push s, st => s :: st
  | Act.pop, st => popS st

/-- A token: a classified span of the input. -/
structure Tok where
  kind : K
  span : List Char
deriving DecidableEq, Repr

/-- Result of a scan: the token sequence, the final mode stack, and
every stack that was current at some step (for stating stack
invariants). -/
structure Out where
  toks : List Tok
  final : List S
  visited : List (List S)
deriving DecidableEq, Repr

/-- The previous-character tracker after consuming a span. -/
def nextPrev (tk : List Char) (prev : Option Char) : Option Char :=
  match tk.getLast? with
  | some c => some c
  | none => prev

/-- Modelled from the spec: the generic mode-stack scan loop (section 4
of the specification; the driver is highlighting-library code, not part
of this repository's sources).  At each position the rules of the top
mode are tried in order, anchored; on a match the matched span is
emitted with the rule's kind and the stack action is applied; when no
rule matches, one character is consumed as a single-unit unclassified
error token.  The fuel argument is instantiated with the input length,
which suffices because every step consumes at least one character. -/
def scanAux : Nat → List S → Option Char → List Char → Out
  | _, st, _, [] => ⟨[], st, [st]⟩
  | 0, st, _, _ :: _ => ⟨[], st, [st]⟩
  | fuel + 1, st, prev, c :: cs =>
    match stateRules (topS st) prev (c :: cs) with
    | some (k, n, act) =>
      let tk := (c :: cs).take n
      let o := scanAux fuel (applyAct act st) (nextPrev tk prev) ((c :: cs).drop n)
      ⟨⟨k, tk⟩ :: o.toks, o.final, st :: o.visited⟩
    | none =>
      let o := scanAux fuel st (some c) cs
      ⟨⟨K.error, [c]⟩ :: o.toks, o.final, st :: o.visited⟩

/-- Scan an input from an initial mode stack and previous character. -/
def scanO (st : List S) (prev : Option Char) (l : List Char) : Out :=
  scanAux l.length st prev l

/-- The token sequence of a scan. -/
def scan (st : List S) (prev : Option Char) (l : List Char) : List Tok :=
  (scanO st prev l).toks

/-- The final mode stack of a scan. -/
def runS (st : List S) (prev : Option Char) (l : List Char) : List S :=
  (scanO st prev l).final

/-- Concatenation of the spans of a token sequence. -/
def spansJoin (ts : List Tok) : List Char :=
  (ts.map Tok.span).flatten

/-! ### Every rule match consumes at least one character -/

theorem commentClose_pos (l : List Char) (n : Nat) (h : commentClose l = some n) :
    1 ≤ n := by
  match l with
  | [] => simp [commentClose] at h
  | [c] => simp [commentClose] at h
  | c1 :: c2 :: rest =>
    rw [commentClose] at h
    split at h
    · simp at h; omega
    · split at h
      · simp at h
      · cases hx : commentClose (c2 :: rest) <;> rw [hx] at h <;> simp at h <;> omega

theorem matchBlockComment_pos (l : List Char) (n : Nat)
    (h : matchBlockComment l = some n) : 1 ≤ n := by
  match l with
  | [] => simp [matchBlockComment] at h
  | [c1] =>
    simp only [matchBlockComment] at h
    split at h <;> simp at h
  | c1 :: c2 :: rest =>
    simp only [matchBlockComment] at h
    split at h
    · split at h
      · cases hx : commentClose rest <;> rw [hx] at h <;> simp at h <;> omega
      · simp at h
    · simp at h

theorem lineClose_pos (l : List Char) (n : Nat) (h : lineClose l = some n) :
    1 ≤ n := by
  match l with
  | [] => simp [lineClose] at h
  | c :: cs =>
    rw [lineClose] at h
    split at h
    · simp at h; omega
    · cases hx : lineClose cs <;> rw [hx] at h <;> simp at h <;> omega

theorem matchLineComment_pos (l : List Char) (n : Nat)
    (h : matchLineComment l = some n) : 1 ≤ n := by
  match l with
  | [] => simp [matchLineComment] at h
  | c :: cs =>
    rw [matchLineComment] at h
    split at h
    · cases hx : lineClose cs <;> simp [hx] at h <;> omega
    · simp at h

theorem matchWord_pos (kw l : List Char) (n : Nat) (hk : 1 ≤ kw.length)
    (h : matchWord kw l = some n) : 1 ≤ n := by
  rw [matchWord] at h
  split at h
  · cases h; exact hk
  · simp at h

theorem matchKeyword_pos (l : List Char) (n : Nat) (h : matchKeyword l = some n) :
    1 ≤ n := by
  obtain ⟨kw, hmem, hw⟩ := List.exists_of_findSome?_eq_some h
  refine matchWord_pos kw l n ?_ hw
  fin_cases hmem <;> simp

theorem matchConstant_pos (l : List Char) (n : Nat) (h : matchConstant l = some n) :
    1 ≤ n := by
  obtain ⟨kw, hmem, hw⟩ := List.exists_of_findSome?_eq_some h
  refine matchWord_pos kw l n ?_ hw
  fin_cases hmem <;> simp

theorem matchSingleQuoted_pos (l : List Char) (n : Nat)
    (h : matchSingleQuoted l = some n) : 1 ≤ n := by
  match l with
  | [] => simp [matchSingleQuoted] at h
  | c :: cs =>
    rw [matchSingleQuoted] at h
    split at h
    · cases hx : singleQuotedClose cs <;> simp [hx] at h <;> omega
    · simp at h

theorem matchNumber_pos (p : Option Char) (l : List Char) (n : Nat)
    (h : matchNumber p l = some n) : 1 ≤ n := by
  match l with
  | [] => simp [matchNumber] at h
  | c :: cs =>
    rw [matchNumber] at h
    split at h
    case isFalse => simp at h
    rename_i hdig
    split at h
    case isFalse => simp at h
    have hmem := List.mem_of_find?_eq_some h
    have hi : 1 ≤ ((c :: cs).takeWhile Char.isDigit).length := by
      simp [List.takeWhile_cons, hdig]
    revert hmem
    split <;> (try split) <;> intro hmem <;> simp at hmem <;> omega

theorem matchName_pos (p : Option Char) (l : List Char) (n : Nat)
    (h : matchName p l = some n) : 1 ≤ n := by
  match l with
  | [] => simp [matchName] at h
  | c :: cs =>
    rw [matchName] at h
    split at h
    case isFalse => simp at h
    rename_i halpha
    split at h
    case isFalse => simp at h
    cases h
    have : isWordChar c = true := by
      simp only [isWordChar, Bool.or_eq_true] at halpha ⊢
      rcases halpha with h1 | h1
      · exact Or.inl (Or.inl h1)
      · exact Or.inr h1
    simp [List.takeWhile_cons, this]

theorem matchOperator_pos (l : List Char) (n : Nat) (h : matchOperator l = some n) :
    1 ≤ n := by
  obtain ⟨alt, hmem, halt⟩ := List.exists_of_findSome?_eq_some h
  have hlen : 1 ≤ alt.length := by fin_cases hmem <;> simp
  rw [ite_eq_iff] at halt
  rcases halt with ⟨-, he⟩ | ⟨-, he⟩
  · cases he; exact hlen
  · cases he

theorem matchPunct_pos (l : List Char) (n : Nat) (h : matchPunct l = some n) :
    1 ≤ n := by
  match l with
  | [] => simp [matchPunct] at h
  | c :: cs =>
    rw [matchPunct] at h
    split at h <;> simp_all

theorem matchChar_pos (ch : Char) (l : List Char) (n : Nat)
    (h : matchChar ch l = some n) : 1 ≤ n := by
  match l with
  | [] => simp [matchChar] at h
  | c :: cs =>
    rw [matchChar] at h
    split at h <;> simp_all

theorem matchTripleQuote_pos (l : List Char) (n : Nat)
    (h : matchTripleQuote l = some n) : 1 ≤ n := by
  match l with
  | [] => simp [matchTripleQuote] at h
  | [c1] =>
    simp only [matchTripleQuote] at h
    split at h <;> simp at h
  | [c1, c2] =>
    simp only [matchTripleQuote] at h
    split at h
    · split at h <;> simp at h
    · simp at h
  | c1 :: c2 :: c3 :: rest =>
    simp only [matchTripleQuote] at h
    split at h
    · split at h
      · split at h
        · injection h with h2; omega
        · simp at h
      · simp at h
    · simp at h

theorem matchSpace_pos (l : List Char) (n : Nat) (h : matchSpace l = some n) :
    1 ≤ n := by
  rw [matchSpace] at h
  split at h
  · simp at h
  · rename_i ht; injection h with h2; omega

theorem matchTplChunk_pos (l : List Char) (n : Nat) (h : matchTplChunk l = some n) :
    1 ≤ n := by
  rw [matchTplChunk] at h
  split at h
  · simp at h
  · rename_i ht; injection h with h2; omega

theorem matchStrChunk_pos (l : List Char) (n : Nat) (h : matchStrChunk l = some n) :
    1 ≤ n := by
  rw [matchStrChunk] at h
  split at h
  · simp at h
  · rename_i ht; injection h with h2; omega

theorem matchDot_pos (l : List Char) (n : Nat) (h : matchDot l = some n) :
    1 ≤ n := by
  match l with
  | [] => simp [matchDot] at h
  | c :: cs =>
    rw [matchDot] at h
    split at h <;> simp_all

/-- A rule table is positive when each of its matchers only reports
matches of at least one character. -/
def PosRules (rs : List Rule) : Prop :=
  ∀ r ∈ rs, ∀ p l n, r.1 p l = some n → 1 ≤ n

theorem applyRules_pos (rs : List Rule) (hrs : PosRules rs) (p : Option Char)
    (l : List Char) (k : K) (n : Nat) (a : Act)
    (h : applyRules rs p l = some (k, n, a)) : 1 ≤ n := by
  induction rs with
  | nil => simp [applyRules] at h
  | cons r rest ih =>
    obtain ⟨m, k0, a0⟩ := r
    rw [applyRules] at h
    cases hx : m p l with
    | some n0 =>
      rw [hx] at h
      cases h
      exact hrs _ (List.mem_cons_self _ _) p l n hx
    | none =>
      rw [hx] at h
      exact ih (fun r hr => hrs r (List.mem_cons_of_mem _ hr)) h

theorem command_posRules : PosRules command := by
  intro r hr p l n h
  simp only [command, List.mem_cons, List.not_mem_nil, or_false] at hr
  rcases hr with h1 | h1 | h1 | h1 | h1 | h1 | h1 | h1 | h1 | h1 | h1 | h1 | h1 | h1 | h1 | h1 <;>
    subst h1 <;> simp only at h
  · exact matchBlockComment_pos l n h
  · exact matchLineComment_pos l n h
  · exact matchKeyword_pos l n h
  · exact matchConstant_pos l n h
  · exact matchSingleQuoted_pos l n h
  · exact matchNumber_pos p l n h
  · exact matchName_pos p l n h
  · exact matchOperator_pos l n h
  · exact matchPunct_pos l n h
  · exact matchChar_pos '[' l n h
  · exact matchChar_pos '(' l n h
  · exact matchChar_pos '{' l n h
  · exact matchChar_pos '}' l n h
  · exact matchTripleQuote_pos l n h
  · exact matchChar_pos '"' l n h
  · exact matchSpace_pos l n h

theorem stateRules_pos (s : S) (p : Option Char) (l : List Char) (k : K) (n : Nat)
    (a : Act) (h : stateRules s p l = some (k, n, a)) : 1 ≤ n := by
  cases s <;> rw [stateRules] at h
  case root => exact applyRules_pos _ command_posRules _ _ _ _ _ h
  case template =>
    refine applyRules_pos _ ?_ _ _ _ _ _ h
    intro r hr p' l' n' h'
    simp only [templateRules, List.mem_cons, List.not_mem_nil, or_false] at hr
    rcases hr with h1 | h1 | h1 <;> subst h1 <;> simp only at h'
    · exact matchTplChunk_pos l' n' h'
    · exact matchBlockComment_pos l' n' h'
    · exact matchChar_pos '{' l' n' h'
  case string =>
    refine applyRules_pos _ ?_ _ _ _ _ _ h
    intro r hr p' l' n' h'
    simp only [stringRules, List.mem_cons, List.not_mem_nil, or_false] at hr
    rcases hr with h1 | h1 | h1 | h1 <;> subst h1 <;> simp only at h'
    · exact matchStrChunk_pos l' n' h'
    · exact matchBlockComment_pos l' n' h'
    · exact matchChar_pos '{' l' n' h'
    · exact matchChar_pos '"' l' n' h'
  case verbatim =>
    refine applyRules_pos _ ?_ _ _ _ _ _ h
    intro r hr p' l' n' h'
    simp only [verbatimRules, List.mem_cons, List.not_mem_nil, or_false] at hr
    rcases hr with h1 | h1 <;> subst h1 <;> simp only at h'
    · exact matchTripleQuote_pos l' n' h'
    · exact matchDot_pos l' n' h'
  case statements =>
    refine applyRules_pos _ ?_ _ _ _ _ _ h
    intro r hr p' l' n' h'
    rcases List.mem_cons.1 hr with h1 | h1
    · subst h1; exact matchChar_pos '}' l' n' h'
    · exact command_posRules r h1 p' l' n' h'
  case object =>
    refine applyRules_pos _ ?_ _ _ _ _ _ h
    intro r hr p' l' n' h'
    rcases List.mem_cons.1 hr with h1 | h1
    · subst h1; exact matchChar_pos '}' l' n' h'
    · exact command_posRules r h1 p' l' n' h'
  case array =>
    refine applyRules_pos _ ?_ _ _ _ _ _ h
    intro r hr p' l' n' h'
    rcases List.mem_cons.1 hr with h1 | h1
    · subst h1; exact matchChar_pos ']' l' n' h'
    · exact command_posRules r h1 p' l' n' h'
  case expression =>
    refine applyRules_pos _ ?_ _ _ _ _ _ h
    intro r hr p' l' n' h'
    rcases List.mem_cons.1 hr with h1 | h1
    · subst h1; exact matchChar_pos ')' l' n' h'
    · exact command_posRules r h1 p' l' n' h'
  case txtRoot =>
    refine applyRules_pos _ ?_ _ _ _ _ _ h
    intro r hr p' l' n' h'
    simp only [txtRootRules, List.mem_cons, List.not_mem_nil, or_false] at hr
    rcases hr with h1 | h1 | h1 <;> subst h1 <;> simp only at h'
    · exact matchTplChunk_pos l' n' h'
    · exact matchBlockComment_pos l' n' h'
    · exact matchChar_pos '{' l' n' h'

/-! ### The scan loop: fuel irrelevance and one-step unfolding -/

theorem scanAux_nil (f : Nat) (st : List S) (p : Option Char) :
    scanAux f st p [] = ⟨[], st, [st]⟩ := by
  cases f <;> rfl

theorem scanAux_zero (st : List S) (p : Option Char) (l : List Char) :
    scanAux 0 st p l = ⟨[], st, [st]⟩ := by
  cases l <;> rfl

theorem scanAux_fuel (f : Nat) : ∀ (g : Nat) (st : List S) (p : Option Char)
    (l : List Char), l.length ≤ f → l.length ≤ g →
    scanAux f st p l = scanAux g st p l := by
  induction f with
  | zero =>
    intro g st p l hf _
    have : l = [] := List.eq_nil_of_length_eq_zero (Nat.le_zero.1 hf)
    subst this
    rw [scanAux_nil, scanAux_nil]
  | succ f ih =>
    intro g st p l hf hg
    cases l with
    | nil => rw [scanAux_nil, scanAux_nil]
    | cons c cs =>
      cases g with
      | zero => simp at hg
      | succ g =>
        rw [scanAux, scanAux]
        cases h : stateRules (topS st) p (c :: cs) with
        | some kna =>
          obtain ⟨k, n, a⟩ := kna
          have hn : 1 ≤ n := stateRules_pos _ _ _ _ _ _ h
          have hlen : ((c :: cs).drop n).length ≤ f := by
            simp only [List.length_drop, List.length_cons]
            simp only [List.length_cons] at hf
            omega
          have hlen2 : ((c :: cs).drop n).length ≤ g := by
            simp only [List.length_drop, List.length_cons]
            simp only [List.length_cons] at hg
            omega
          simp only [ih g _ _ _ hlen hlen2]
        | none =>
          have hlen : cs.length ≤ f := by simp at hf; omega
          have hlen2 : cs.length ≤ g := by simp at hg; omega
          simp only [ih g _ _ _ hlen hlen2]

theorem scanO_nil (st : List S) (p : Option Char) :
    scanO st p [] = ⟨[], st, [st]⟩ := rfl

theorem scanO_cons_some (st : List S) (p : Option Char) (c : Char)
    (cs : List Char) (k : K) (n : Nat) (a : Act)
    (h : stateRules (topS st) p (c :: cs) = some (k, n, a)) :
    scanO st p (c :: cs) =
      ⟨⟨k, (c :: cs).take n⟩ ::
          (scanO (applyAct a st) (nextPrev ((c :: cs).take n) p)
            ((c :: cs).drop n)).toks,
        (scanO (applyAct a st) (nextPrev ((c :: cs).take n) p)
          ((c :: cs).drop n)).final,
        st :: (scanO (applyAct a st) (nextPrev ((c :: cs).take n) p)
          ((c :: cs).drop n)).visited⟩ := by
  have hn : 1 ≤ n := stateRules_pos _ _ _ _ _ _ h
  have hfe : scanAux cs.length (applyAct a st) (nextPrev ((c :: cs).take n) p)
      ((c :: cs).drop n) =
      scanAux ((c :: cs).drop n).length (applyAct a st)
        (nextPrev ((c :: cs).take n) p) ((c :: cs).drop n) := by
    refine scanAux_fuel _ _ _ _ _ ?_ ?_
    · simp only [List.length_drop, List.length_cons]; omega
    · exact Nat.le_refl _
  show scanAux (c :: cs).length st p (c :: cs) = _
  simp only [List.length_cons]
  rw [scanAux, h]
  dsimp only
  rw [hfe]
  rfl

theorem scanO_cons_none (st : List S) (p : Option Char) (c : Char)
    (cs : List Char) (h : stateRules (topS st) p (c :: cs) = none) :
    scanO st p (c :: cs) =
      ⟨⟨K.error, [c]⟩ :: (scanO st (some c) cs).toks,
        (scanO st (some c) cs).final,
        st :: (scanO st (some c) cs).visited⟩ := by
  show scanAux (c :: cs).length st p (c :: cs) = _
  simp only [List.length_cons]
  rw [scanAux, h]
  rfl

theorem runS_nil (st : List S) (p : Option Char) : runS st p [] = st := rfl

theorem runS_cons_some (st : List S) (p : Option Char) (c : Char)
    (cs : List Char) (k : K) (n : Nat) (a : Act)
    (h : stateRules (topS st) p (c :: cs) = some (k, n, a)) :
    runS st p (c :: cs) =
      runS (applyAct a st) (nextPrev ((c :: cs).take n) p) ((c :: cs).drop n) := by
  unfold runS
  rw [scanO_cons_some st p c cs k n a h]

theorem runS_cons_none (st : List S) (p : Option Char) (c : Char)
    (cs : List Char) (h : stateRules (topS st) p (c :: cs) = none) :
    runS st p (c :: cs) = runS st (some c) cs := by
  unfold runS
  rw [scanO_cons_none st p c cs h]

/-! ### Losslessness, progress, and the stack invariant -/

theorem scanAux_spans (f : Nat) : ∀ (st : List S) (p : Option Char)
    (l : List Char), l.length ≤ f → spansJoin (scanAux f st p l).toks = l := by
  induction f with
  | zero =>
    intro st p l hf
    have : l = [] := List.eq_nil_of_length_eq_zero (Nat.le_zero.1 hf)
    subst this
    rw [scanAux_nil]
    rfl
  | succ f ih =>
    intro st p l hf
    cases l with
    | nil => rw [scanAux_nil]; rfl
    | cons c cs =>
      rw [scanAux]
      cases h : stateRules (topS st) p (c :: cs) with
      | some kna =>
        obtain ⟨k, n, a⟩ := kna
        have hn : 1 ≤ n := stateRules_pos _ _ _ _ _ _ h
        have hlen : ((c :: cs).drop n).length ≤ f := by
          simp only [List.length_drop, List.length_cons]
          simp only [List.length_cons] at hf
          omega
        show spansJoin (⟨k, (c :: cs).take n⟩ :: _) = c :: cs
        rw [spansJoin]
        simp only [List.map_cons, List.flatten_cons]
        rw [show ∀ ts : List Tok, (ts.map Tok.span).flatten = spansJoin ts from
          fun _ => rfl]
        rw [ih _ _ _ hlen]
        exact List.take_append_drop n (c :: cs)
      | none =>
        have hlen : cs.length ≤ f := by simp at hf; omega
        show spansJoin (⟨K.error, [c]⟩ :: _) = c :: cs
        rw [spansJoin]
        simp only [List.map_cons, List.flatten_cons]
        rw [show ∀ ts : List Tok, (ts.map Tok.span).flatten = spansJoin ts from
          fun _ => rfl]
        rw [ih _ _ _ hlen]
        rfl

theorem scan_spans (st : List S) (p : Option Char) (l : List Char) :
    spansJoin (scan st p l) = l :=
  scanAux_spans l.length st p l (Nat.le_refl _)

theorem scanAux_tok_pos (f : Nat) : ∀ (st : List S) (p : Option Char)
    (l : List Char) (t : Tok), t ∈ (scanAux f st p l).toks →
    1 ≤ t.span.length := by
  induction f with
  | zero =>
    intro st p l t ht
    rw [scanAux_zero] at ht
    simp at ht
  | succ f ih =>
    intro st p l t ht
    cases l with
    | nil => rw [scanAux_nil] at ht; simp at ht
    | cons c cs =>
      rw [scanAux] at ht
      cases h : stateRules (topS st) p (c :: cs) with
      | some kna =>
        obtain ⟨k, n, a⟩ := kna
        rw [h] at ht
        have hn : 1 ≤ n := stateRules_pos _ _ _ _ _ _ h
        rcases List.mem_cons.1 ht with h1 | h1
        · subst h1
          simp only [List.length_take, List.length_cons]
          omega
        · exact ih _ _ _ _ h1
      | none =>
        rw [h] at ht
        rcases List.mem_cons.1 ht with h1 | h1
        · subst h1; simp
        · exact ih _ _ _ _ h1

theorem scanAux_count (f : Nat) : ∀ (st : List S) (p : Option Char)
    (l : List Char), (scanAux f st p l).toks.length ≤ l.length := by
  induction f with
  | zero =>
    intro st p l
    rw [scanAux_zero]
    simp
  | succ f ih =>
    intro st p l
    cases l with
    | nil => rw [scanAux_nil]; simp
    | cons c cs =>
      rw [scanAux]
      cases h : stateRules (topS st) p (c :: cs) with
      | some kna =>
        obtain ⟨k, n, a⟩ := kna
        have hn : 1 ≤ n := stateRules_pos _ _ _ _ _ _ h
        have := ih (applyAct a st) (nextPrev ((c :: cs).take n) p)
          ((c :: cs).drop n)
        simp only [List.length_cons, List.length_drop] at this ⊢
        omega
      | none =>
        have := ih st (some c) cs
        simp only [List.length_cons]
        omega

/-- Applying a stack action keeps a nonempty stack nonempty and never
changes its bottom element. -/
theorem applyAct_keep (a : Act) (st : List S) (hst : st ≠ []) :
    applyAct a st ≠ [] ∧ (applyAct a st).getLast? = st.getLast? := by
  cases a with
  | stay => exact ⟨hst, rfl⟩
  | push s =>
    refine ⟨by simp [applyAct], ?_⟩
    cases st with
    | nil => exact absurd rfl hst
    | cons b t => exact List.getLast?_cons_cons
  | pop =>
    cases st with
    | nil => exact absurd rfl hst
    | cons b t =>
      cases t with
      | nil => exact ⟨by simp [applyAct, popS], rfl⟩
      | cons b2 t2 =>
        refine ⟨by simp [applyAct, popS], ?_⟩
        show (b2 :: t2).getLast? = (b :: b2 :: t2).getLast?
        exact List.getLast?_cons_cons.symm

theorem scanAux_visited (f : Nat) : ∀ (st : List S) (p : Option Char)
    (l : List Char), st ≠ [] → ∀ s ∈ (scanAux f st p l).visited,
    s ≠ [] ∧ s.getLast? = st.getLast? := by
  induction f with
  | zero =>
    intro st p l hst s hs
    rw [scanAux_zero] at hs
    simp at hs
    subst hs
    exact ⟨hst, rfl⟩
  | succ f ih =>
    intro st p l hst s hs
    cases l with
    | nil =>
      rw [scanAux_nil] at hs
      simp at hs
      subst hs
      exact ⟨hst, rfl⟩
    | cons c cs =>
      rw [scanAux] at hs
      cases h : stateRules (topS st) p (c :: cs) with
      | some kna =>
        obtain ⟨k, n, a⟩ := kna
        rw [h] at hs
        rcases List.mem_cons.1 hs with h1 | h1
        · subst h1; exact ⟨hst, rfl⟩
        · obtain ⟨hne, hlast⟩ := applyAct_keep a st hst
          obtain ⟨h2, h3⟩ := ih _ _ _ hne s h1
          exact ⟨h2, h3.trans hlast⟩
      | none =>
        rw [h] at hs
        rcases List.mem_cons.1 hs with h1 | h1
        · subst h1; exact ⟨hst, rfl⟩
        · exact ih _ _ _ hst s h1

/-! ### Well-nested inputs and mode-stack balance -/

/-- The Code-family states: those whose rule table is `command`,
possibly preceded by an own-closer rule. -/
def codeFam (s : S) : Prop :=
  s = S.root ∨ s = S.statements ∨ s = S.object ∨ s = S.array ∨ s = S.expression

/-- The head of `l`, if any, is not `ch`. -/
def headNot (ch : Char) (l : List Char) : Prop :=
  ∀ e, l.head? = some e → e ≠ ch

theorem popS_cons (st : List S) (s : S) (h : st ≠ []) : popS (s :: st) = st := by
  cases st with
  | nil => exact absurd rfl h
  | cons b t => rfl

/-- One-character rule steps. -/
theorem runS_step1 (st : List S) (p : Option Char) (c : Char) (cs : List Char)
    (k : K) (a : Act) (h : stateRules (topS st) p (c :: cs) = some (k, 1, a)) :
    runS st p (c :: cs) = runS (applyAct a st) (some c) cs := by
  rw [runS_cons_some st p c cs k 1 a h]
  rfl

theorem stepComma (s : S) (hs : codeFam s) (p : Option Char) (cs : List Char) :
    stateRules s p (',' :: cs) = some (K.punctuation, 1, Act.stay) := by
  rcases hs with rfl | rfl | rfl | rfl | rfl <;> rfl

theorem stepLParen (s : S) (hs : codeFam s) (p : Option Char) (cs : List Char) :
    stateRules s p ('(' :: cs) = some (K.punctuation, 1, Act.push S.expression) := by
  rcases hs with rfl | rfl | rfl | rfl | rfl <;> rfl

theorem stepLBrack (s : S) (hs : codeFam s) (p : Option Char) (cs : List Char) :
    stateRules s p ('[' :: cs) = some (K.punctuation, 1, Act.push S.array) := by
  rcases hs with rfl | rfl | rfl | rfl | rfl <;> rfl

theorem stepRParen (p : Option Char) (cs : List Char) :
    stateRules S.expression p (')' :: cs) = some (K.punctuation, 1, Act.pop) := rfl

theorem stepRBrack (p : Option Char) (cs : List Char) :
    stateRules S.array p (']' :: cs) = some (K.punctuation, 1, Act.pop) := rfl

theorem stepRBraceStatements (p : Option Char) (cs : List Char) :
    stateRules S.statements p ('}' :: cs) = some (K.commentPreproc, 1, Act.pop) := rfl

theorem stepRBraceObject (p : Option Char) (cs : List Char) :
    stateRules S.object p ('}' :: cs) = some (K.punctuation, 1, Act.pop) := rfl

theorem stepStringQuote (p : Option Char) (cs : List Char) :
    stateRules S.string p ('"' :: cs) = some (K.str, 1, Act.pop) := rfl

theorem command_lbrace (p : Option Char) (d : Char) (ds : List Char) (hd : d ≠ '#') :
    applyRules command p ('{' :: d :: ds) = some (K.punctuation, 1, Act.push S.object) := by
  have hbc : matchBlockComment ('{' :: d :: ds) = none := by
    simp [matchBlockComment, hd]
  calc applyRules command p ('{' :: d :: ds)
      = (match matchBlockComment ('{' :: d :: ds) with
        | some n => some (K.commentMultiline, n, Act.stay)
        | none => some (K.punctuation, 1, Act.push S.object)) := rfl
    _ = some (K.punctuation, 1, Act.push S.object) := by rw [hbc]

theorem stepLBrace (s : S) (hs : codeFam s) (p : Option Char) (cs : List Char)
    (hcs : headNot '#' cs) :
    stateRules s p ('{' :: cs) = some (K.punctuation, 1, Act.push S.object) := by
  cases cs with
  | nil => rcases hs with rfl | rfl | rfl | rfl | rfl <;> rfl
  | cons d ds =>
    have hd : d ≠ '#' := hcs d rfl
    rcases hs with rfl | rfl | rfl | rfl | rfl <;> exact command_lbrace p d ds hd

theorem command_quote (p : Option Char) (d : Char) (ds : List Char) (hd : d ≠ '"') :
    applyRules command p ('"' :: d :: ds) = some (K.str, 1, Act.push S.string) := by
  have htq : matchTripleQuote ('"' :: d :: ds) = none := by
    simp [matchTripleQuote, hd]
  calc applyRules command p ('"' :: d :: ds)
      = (match matchTripleQuote ('"' :: d :: ds) with
        | some n => some (K.str, n, Act.push S.verbatim)
        | none => some (K.str, 1, Act.push S.string)) := rfl
    _ = some (K.str, 1, Act.push S.string) := by rw [htq]

theorem stepQuote (s : S) (hs : codeFam s) (p : Option Char) (cs : List Char)
    (hcs : headNot '"' cs) :
    stateRules s p ('"' :: cs) = some (K.str, 1, Act.push S.string) := by
  cases cs with
  | nil => rcases hs with rfl | rfl | rfl | rfl | rfl <;> rfl
  | cons d ds =>
    have hd : d ≠ '"' := hcs d rfl
    rcases hs with rfl | rfl | rfl | rfl | rfl <;> exact command_quote p d ds hd

theorem stepStringLBrace (p : Option Char) (cs : List Char)
    (hcs : headNot '#' cs) :
    stateRules S.string p ('{' :: cs) = some (K.commentPreproc, 1, Act.push S.statements) := by
  cases cs with
  | nil => rfl
  | cons d ds =>
    have hd : d ≠ '#' := hcs d rfl
    have hbc : matchBlockComment ('{' :: d :: ds) = none := by
      simp [matchBlockComment, hd]
    calc stateRules S.string p ('{' :: d :: ds)
        = (match matchBlockComment ('{' :: d :: ds) with
          | some n => some (K.commentMultiline, n, Act.stay)
          | none => some (K.commentPreproc, 1, Act.push S.statements)) := rfl
      _ = some (K.commentPreproc, 1, Act.push S.statements) := by rw [hbc]

theorem stepTxtLBrace (p : Option Char) (cs : List Char)
    (hcs : headNot '#' cs) :
    stateRules S.txtRoot p ('{' :: cs) = some (K.commentPreproc, 1, Act.push S.statements) := by
  cases cs with
  | nil => rfl
  | cons d ds =>
    have hd : d ≠ '#' := hcs d rfl
    have hbc : matchBlockComment ('{' :: d :: ds) = none := by
      simp [matchBlockComment, hd]
    calc stateRules S.txtRoot p ('{' :: d :: ds)
        = (match matchBlockComment ('{' :: d :: ds) with
          | some n => some (K.commentMultiline, n, Act.stay)
          | none => some (K.commentPreproc, 1, Act.push S.statements)) := rfl
      _ = some (K.commentPreproc, 1, Act.push S.statements) := by rw [hbc]

theorem takeWhile_length_take (q : Char → Bool) (l : List Char) :
    l.take (l.takeWhile q).length = l.takeWhile q := by
  induction l with
  | nil => rfl
  | cons a t ih =>
    by_cases h : q a <;> simp [List.takeWhile_cons, h, ih]

theorem dropWhile_length_drop (q : Char → Bool) (l : List Char) :
    l.drop (l.takeWhile q).length = l.dropWhile q := by
  induction l with
  | nil => rfl
  | cons a t ih =>
    by_cases h : q a <;> simp [List.takeWhile_cons, List.dropWhile_cons, h, ih]

theorem dropWhile_length_le (q : Char → Bool) (l : List Char) :
    (l.dropWhile q).length ≤ l.length := by
  induction l with
  | nil => simp
  | cons a t ih =>
    by_cases h : q a <;> simp [List.dropWhile_cons, h] <;> omega

theorem dropWhile_append_guard (q : Char → Bool) (t rest : List Char)
    (hg : ∀ e, rest.head? = some e → q e = false) :
    (t ++ rest).dropWhile q = t.dropWhile q ++ rest := by
  induction t with
  | nil =>
    cases rest with
    | nil => rfl
    | cons r rs =>
      show (r :: rs).dropWhile q = [].dropWhile q ++ r :: rs
      rw [List.dropWhile_cons]
      simp [hg r rfl]
  | cons a t ih =>
    by_cases h : q a <;> simp [List.dropWhile_cons, h, ih]

/-- Chunk steps in `string` state. -/
theorem matchStrChunk_cons (c : Char) (cs : List Char) (hc : strSafe c = true) :
    matchStrChunk (c :: cs) = some ((c :: cs).takeWhile strSafe).length := by
  simp [matchStrChunk, List.takeWhile_cons, hc]

theorem stringRules_chunk (p : Option Char) (c : Char) (cs : List Char)
    (hc : strSafe c = true) :
    applyRules stringRules p (c :: cs) =
      some (K.str, ((c :: cs).takeWhile strSafe).length, Act.stay) := by
  calc applyRules stringRules p (c :: cs)
      = (match matchStrChunk (c :: cs) with
        | some n => some (K.str, n, Act.stay)
        | none => applyRules (stringRules.drop 1) p (c :: cs)) := rfl
    _ = _ := by rw [matchStrChunk_cons c cs hc]

theorem runS_chunk_string (st : List S) (p : Option Char) (c : Char)
    (cs : List Char) (htop : topS st = S.string) (hc : strSafe c = true) :
    runS st p (c :: cs) =
      runS st (nextPrev ((c :: cs).takeWhile strSafe) p)
        ((c :: cs).dropWhile strSafe) := by
  have hstep : stateRules (topS st) p (c :: cs) =
      some (K.str, ((c :: cs).takeWhile strSafe).length, Act.stay) := by
    rw [htop]
    exact stringRules_chunk p c cs hc
  rw [runS_cons_some st p c cs _ _ _ hstep, takeWhile_length_take,
    dropWhile_length_drop]
  rfl

/-- Chunk steps in `txtRoot` state. -/
theorem matchTplChunk_cons (c : Char) (cs : List Char) (hc : tplSafe c = true) :
    matchTplChunk (c :: cs) = some ((c :: cs).takeWhile tplSafe).length := by
  simp [matchTplChunk, List.takeWhile_cons, hc]

theorem txtRules_chunk (p : Option Char) (c : Char) (cs : List Char)
    (hc : tplSafe c = true) :
    applyRules txtRootRules p (c :: cs) =
      some (K.other, ((c :: cs).takeWhile tplSafe).length, Act.stay) := by
  calc applyRules txtRootRules p (c :: cs)
      = (match matchTplChunk (c :: cs) with
        | some n => some (K.other, n, Act.stay)
        | none => applyRules (txtRootRules.drop 1) p (c :: cs)) := rfl
    _ = _ := by rw [matchTplChunk_cons c cs hc]

theorem runS_chunk_txt (st : List S) (p : Option Char) (c : Char)
    (cs : List Char) (htop : topS st = S.txtRoot) (hc : tplSafe c = true) :
    runS st p (c :: cs) =
      runS st (nextPrev ((c :: cs).takeWhile tplSafe) p)
        ((c :: cs).dropWhile tplSafe) := by
  have hstep : stateRules (topS st) p (c :: cs) =
      some (K.other, ((c :: cs).takeWhile tplSafe).length, Act.stay) := by
    rw [htop]
    exact txtRules_chunk p c cs hc
  rw [runS_cons_some st p c cs _ _ _ hstep, takeWhile_length_take,
    dropWhile_length_drop]
  rfl

/-- Syntactic contexts for well-nested input fragments: code-mode
fragments, quoted-string content, and template-text content. -/
inductive Ctx where
  | code
  | strC
  | txt
deriving DecidableEq

/-- Well-nested, properly closed input fragments: `Bal Ctx.code w` means
`w` is assembled only from properly closed constructs legal in a
Code-family mode (filler punctuation, `(...)`, `[...]`, `{...}` object
blocks, and `"..."` strings with interpolation); `Bal Ctx.strC s` is
well-nested quoted-string content; `Bal Ctx.txt t` is well-nested
template text for the `txtRoot` mode. -/
inductive Bal : Ctx → List Char → Prop where
  | nil (k : Ctx) : Bal k []
  | comma (w : List Char) : Bal Ctx.code w → Bal Ctx.code (',' :: w)
  | paren (w w2 : List Char) : Bal Ctx.code w → Bal Ctx.code w2 →
      Bal Ctx.code ('(' :: w ++ ')' :: w2)
  | brack (w w2 : List Char) : Bal Ctx.code w → Bal Ctx.code w2 →
      Bal Ctx.code ('[' :: w ++ ']' :: w2)
  | brace (w w2 : List Char) : Bal Ctx.code w → Bal Ctx.code w2 →
      Bal Ctx.code ('{' :: w ++ '}' :: w2)
  | qstr (s w2 : List Char) : Bal Ctx.strC s → s ≠ [] → Bal Ctx.code w2 →
      Bal Ctx.code ('"' :: s ++ '"' :: w2)
  | schr (c : Char) (s : List Char) : strSafe c = true → Bal Ctx.strC s →
      Bal Ctx.strC (c :: s)
  | sinterp (w s : List Char) : Bal Ctx.code w → Bal Ctx.strC s →
      Bal Ctx.strC ('{' :: w ++ '}' :: s)
  | tchr (c : Char) (t : List Char) : tplSafe c = true → Bal Ctx.txt t →
      Bal Ctx.txt (c :: t)
  | tcode (w t : List Char) : Bal Ctx.code w → Bal Ctx.txt t →
      Bal Ctx.txt ('{' :: w ++ '}' :: t)

/-- Stacks on which a fragment of the given context can be scanned. -/
def stackOK : Ctx → List S → Prop
  | Ctx.code, st => codeFam (topS st) ∧ st ≠ []
  | Ctx.strC, st => topS st = S.string ∧ st ≠ []
  | Ctx.txt, st => topS st = S.txtRoot ∧ st ≠ []

/-- The continuation after a content fragment must not start with a
character that its chunk rule would also consume. -/
def guardOK : Ctx → List Char → Prop
  | Ctx.code, _ => True
  | Ctx.strC, rest => ∀ e, rest.head? = some e → strSafe e = false
  | Ctx.txt, rest => ∀ e, rest.head? = some e → tplSafe e = false

theorem bal_code_head (w : List Char) (h : Bal Ctx.code w) :
    w = [] ∨ ∃ c w2, w = c :: w2 ∧
      (c = ',' ∨ c = '(' ∨ c = '[' ∨ c = '{' ∨ c = '"') := by
  cases h with
  | nil => exact Or.inl rfl
  | comma w hw => exact Or.inr ⟨',', w, rfl, Or.inl rfl⟩
  | paren w w2 hw hw2 =>
    exact Or.inr ⟨'(', w ++ ')' :: w2, rfl, Or.inr (Or.inl rfl)⟩
  | brack w w2 hw hw2 =>
    exact Or.inr ⟨'[', w ++ ']' :: w2, rfl, Or.inr (Or.inr (Or.inl rfl))⟩
  | brace w w2 hw hw2 =>
    exact Or.inr ⟨'{', w ++ '}' :: w2, rfl, Or.inr (Or.inr (Or.inr (Or.inl rfl)))⟩
  | qstr s w2 hs hne hw2 =>
    exact Or.inr ⟨'"', s ++ '"' :: w2, rfl, Or.inr (Or.inr (Or.inr (Or.inr rfl)))⟩

theorem bal_code_headNot (w x : List Char) (d : Char) (h : Bal Ctx.code w)
    (hd : d ≠ '#') : headNot '#' (w ++ d :: x) := by
  rcases bal_code_head w h with h1 | ⟨c, w2, rfl, hc⟩
  · subst h1
    intro e he
    simp at he
    subst he
    exact hd
  · intro e he
    simp at he
    subst he
    rcases hc with rfl | rfl | rfl | rfl | rfl <;> decide

theorem bal_str_headNot_quote (s x : List Char) (h : Bal Ctx.strC s)
    (hne : s ≠ []) : headNot '"' (s ++ x) := by
  cases h with
  | nil => exact absurd rfl hne
  | schr c s2 hc hs2 =>
    intro e he
    simp at he
    subst he
    intro heq
    subst heq
    simp [strSafe] at hc
  | sinterp w s2 hw hs2 =>
    intro e he
    simp at he
    subst he
    decide

theorem bal_drop_strC (k : Ctx) (s : List Char) (h : Bal k s) :
    k = Ctx.strC → Bal Ctx.strC (s.dropWhile strSafe) := by
  induction h with
  | nil => intro _; exact Bal.nil Ctx.strC
  | comma w hw ih => intro hk; cases hk
  | paren w w2 hw hw2 ihw ihw2 => intro hk; cases hk
  | brack w w2 hw hw2 ihw ihw2 => intro hk; cases hk
  | brace w w2 hw hw2 ihw ihw2 => intro hk; cases hk
  | qstr s2 w2 hs hne hw2 ihs ihw2 => intro hk; cases hk
  | schr c s2 hc hs2 ih =>
    intro _
    rw [List.dropWhile_cons]
    simp only [hc, if_true]
    exact ih rfl
  | sinterp w s2 hw hs2 ihw ihs =>
    intro _
    rw [List.cons_append, List.dropWhile_cons]
    simp only [show strSafe '{' = false from rfl, if_false]
    exact Bal.sinterp w s2 hw hs2
  | tchr c t hc ht ih => intro hk; cases hk
  | tcode w t hw ht ihw iht => intro hk; cases hk

theorem bal_drop_txt (k : Ctx) (t : List Char) (h : Bal k t) :
    k = Ctx.txt → Bal Ctx.txt (t.dropWhile tplSafe) := by
  induction h with
  | nil => intro _; exact Bal.nil Ctx.txt
  | comma w hw ih => intro hk; cases hk
  | paren w w2 hw hw2 ihw ihw2 => intro hk; cases hk
  | brack w w2 hw hw2 ihw ihw2 => intro hk; cases hk
  | brace w w2 hw hw2 ihw ihw2 => intro hk; cases hk
  | qstr s2 w2 hs hne hw2 ihs ihw2 => intro hk; cases hk
  | schr c s2 hc hs2 ih => intro hk; cases hk
  | sinterp w s2 hw hs2 ihw ihs => intro hk; cases hk
  | tchr c t2 hc ht ih =>
    intro _
    rw [List.dropWhile_cons]
    simp only [hc, if_true]
    exact ih rfl
  | tcode w t2 hw ht ihw iht =>
    intro _
    rw [List.cons_append, List.dropWhile_cons]
    simp only [show tplSafe '{' = false from rfl, if_false]
    exact Bal.tcode w t2 hw ht

/-- Scanning a well-nested fragment from a suitable stack consumes
exactly the fragment and returns the stack unchanged, for any
continuation satisfying the context's guard. -/
theorem balRun (n : Nat) : ∀ (k : Ctx) (w : List Char), Bal k w →
    w.length ≤ n → ∀ (st : List S) (p : Option Char) (rest : List Char),
    stackOK k st → guardOK k rest →
    ∃ q, runS st p (w ++ rest) = runS st q rest := by
  induction n with
  | zero =>
    intro k w hw hlen st p rest _ _
    have hw0 : w = [] := List.eq_nil_of_length_eq_zero (Nat.le_zero.1 hlen)
    subst hw0
    exact ⟨p, rfl⟩
  | succ n ih =>
    intro k w hw hlen st p rest hst hg
    cases hw with
    | nil => exact ⟨p, rfl⟩
    | comma w1 hw1 =>
      obtain ⟨hfam, hne⟩ := hst
      rw [List.cons_append,
        runS_step1 st p ',' (w1 ++ rest) _ _ (stepComma (topS st) hfam p _)]
      simp only [List.length_cons] at hlen
      exact ih Ctx.code w1 hw1 (by omega) st (some ',') rest ⟨hfam, hne⟩ hg
    | paren w1 w2 hw1 hw2 =>
      obtain ⟨hfam, hne⟩ := hst
      have hassoc : ('(' :: w1 ++ ')' :: w2) ++ rest =
          '(' :: (w1 ++ ')' :: (w2 ++ rest)) := by simp
      rw [hassoc,
        runS_step1 st p '(' _ _ _ (stepLParen (topS st) hfam p _),
        show applyAct (Act.push S.expression) st = S.expression :: st from rfl]
      simp only [List.length_cons, List.length_append] at hlen
      obtain ⟨q1, hq1⟩ := ih Ctx.code w1 hw1 (by omega) (S.expression :: st)
        (some '(') (')' :: (w2 ++ rest))
        ⟨Or.inr (Or.inr (Or.inr (Or.inr rfl))), by simp⟩ trivial
      rw [hq1,
        runS_step1 (S.expression :: st) q1 ')' (w2 ++ rest) _ _ (stepRParen q1 _),
        show applyAct Act.pop (S.expression :: st) = popS (S.expression :: st)
          from rfl,
        popS_cons st S.expression hne]
      exact ih Ctx.code w2 hw2 (by omega) st (some ')') rest ⟨hfam, hne⟩ hg
    | brack w1 w2 hw1 hw2 =>
      obtain ⟨hfam, hne⟩ := hst
      have hassoc : ('[' :: w1 ++ ']' :: w2) ++ rest =
          '[' :: (w1 ++ ']' :: (w2 ++ rest)) := by simp
      rw [hassoc,
        runS_step1 st p '[' _ _ _ (stepLBrack (topS st) hfam p _),
        show applyAct (Act.push S.array) st = S.array :: st from rfl]
      simp only [List.length_cons, List.length_append] at hlen
      obtain ⟨q1, hq1⟩ := ih Ctx.code w1 hw1 (by omega) (S.array :: st)
        (some '[') (']' :: (w2 ++ rest))
        ⟨Or.inr (Or.inr (Or.inr (Or.inl rfl))), by simp⟩ trivial
      rw [hq1,
        runS_step1 (S.array :: st) q1 ']' (w2 ++ rest) _ _ (stepRBrack q1 _),
        show applyAct Act.pop (S.array :: st) = popS (S.array :: st) from rfl,
        popS_cons st S.array hne]
      exact ih Ctx.code w2 hw2 (by omega) st (some ']') rest ⟨hfam, hne⟩ hg
    | brace w1 w2 hw1 hw2 =>
      obtain ⟨hfam, hne⟩ := hst
      have hassoc : ('{' :: w1 ++ '}' :: w2) ++ rest =
          '{' :: (w1 ++ '}' :: (w2 ++ rest)) := by simp
      have hhn : headNot '#' (w1 ++ '}' :: (w2 ++ rest)) :=
        bal_code_headNot w1 (w2 ++ rest) '}' hw1 (by decide)
      rw [hassoc,
        runS_step1 st p '{' _ _ _ (stepLBrace (topS st) hfam p _ hhn),
        show applyAct (Act.push S.object) st = S.object :: st from rfl]
      simp only [List.length_cons, List.length_append] at hlen
      obtain ⟨q1, hq1⟩ := ih Ctx.code w1 hw1 (by omega) (S.object :: st)
        (some '{') ('}' :: (w2 ++ rest))
        ⟨Or.inr (Or.inr (Or.inl rfl)), by simp⟩ trivial
      rw [hq1,
        runS_step1 (S.object :: st) q1 '}' (w2 ++ rest) _ _
          (stepRBraceObject q1 _),
        show applyAct Act.pop (S.object :: st) = popS (S.object :: st) from rfl,
        popS_cons st S.object hne]
      exact ih Ctx.code w2 hw2 (by omega) st (some '}') rest ⟨hfam, hne⟩ hg
    | qstr s1 w2 hs1 hne1 hw2 =>
      obtain ⟨hfam, hne⟩ := hst
      have hassoc : ('"' :: s1 ++ '"' :: w2) ++ rest =
          '"' :: (s1 ++ '"' :: (w2 ++ rest)) := by simp
      have hhn : headNot '"' (s1 ++ '"' :: (w2 ++ rest)) :=
        bal_str_headNot_quote s1 ('"' :: (w2 ++ rest)) hs1 hne1
      rw [hassoc,
        runS_step1 st p '"' _ _ _ (stepQuote (topS st) hfam p _ hhn),
        show applyAct (Act.push S.string) st = S.string :: st from rfl]
      simp only [List.length_cons, List.length_append] at hlen
      obtain ⟨q1, hq1⟩ := ih Ctx.strC s1 hs1 (by omega) (S.string :: st)
        (some '"') ('"' :: (w2 ++ rest)) ⟨rfl, by simp⟩
        (by intro e he; simp at he; subst he; rfl)
      rw [hq1,
        runS_step1 (S.string :: st) q1 '"' (w2 ++ rest) _ _
          (stepStringQuote q1 _),
        show applyAct Act.pop (S.string :: st) = popS (S.string :: st) from rfl,
        popS_cons st S.string hne]
      exact ih Ctx.code w2 hw2 (by omega) st (some '"') rest ⟨hfam, hne⟩ hg
    | schr c s1 hc hs1 =>
      obtain ⟨htop, hne⟩ := hst
      rw [List.cons_append, runS_chunk_string st p c (s1 ++ rest) htop hc]
      have hd1 : (c :: (s1 ++ rest)).dropWhile strSafe =
          (s1 ++ rest).dropWhile strSafe := by
        rw [List.dropWhile_cons]
        simp [hc]
      have hd2 : (s1 ++ rest).dropWhile strSafe =
          s1.dropWhile strSafe ++ rest :=
        dropWhile_append_guard strSafe s1 rest hg
      rw [hd1, hd2]
      simp only [List.length_cons] at hlen
      have hlen2 : (s1.dropWhile strSafe).length ≤ n :=
        le_trans (dropWhile_length_le _ _) (by omega)
      exact ih Ctx.strC _ (bal_drop_strC Ctx.strC s1 hs1 rfl) hlen2 st _ rest
        ⟨htop, hne⟩ hg
    | sinterp w1 s1 hw1 hs1 =>
      obtain ⟨htop, hne⟩ := hst
      have hassoc : ('{' :: w1 ++ '}' :: s1) ++ rest =
          '{' :: (w1 ++ '}' :: (s1 ++ rest)) := by simp
      have hhn : headNot '#' (w1 ++ '}' :: (s1 ++ rest)) :=
        bal_code_headNot w1 (s1 ++ rest) '}' hw1 (by decide)
      have hstep : stateRules (topS st) p
          ('{' :: (w1 ++ '}' :: (s1 ++ rest))) =
          some (K.commentPreproc, 1, Act.push S.statements) := by
        rw [htop]
        exact stepStringLBrace p _ hhn
      rw [hassoc, runS_step1 st p '{' _ _ _ hstep,
        show applyAct (Act.push S.statements) st = S.statements :: st from rfl]
      simp only [List.length_cons, List.length_append] at hlen
      obtain ⟨q1, hq1⟩ := ih Ctx.code w1 hw1 (by omega) (S.statements :: st)
        (some '{') ('}' :: (s1 ++ rest)) ⟨Or.inr (Or.inl rfl), by simp⟩ trivial
      rw [hq1,
        runS_step1 (S.statements :: st) q1 '}' (s1 ++ rest) _ _
          (stepRBraceStatements q1 _),
        show applyAct Act.pop (S.statements :: st) = popS (S.statements :: st)
          from rfl,
        popS_cons st S.statements hne]
      exact ih Ctx.strC s1 hs1 (by omega) st (some '}') rest ⟨htop, hne⟩ hg
    | tchr c t1 hc ht1 =>
      obtain ⟨htop, hne⟩ := hst
      rw [List.cons_append, runS_chunk_txt st p c (t1 ++ rest) htop hc]
      have hd1 : (c :: (t1 ++ rest)).dropWhile tplSafe =
          (t1 ++ rest).dropWhile tplSafe := by
        rw [List.dropWhile_cons]
        simp [hc]
      have hd2 : (t1 ++ rest).dropWhile tplSafe =
          t1.dropWhile tplSafe ++ rest :=
        dropWhile_append_guard tplSafe t1 rest hg
      rw [hd1, hd2]
      simp only [List.length_cons] at hlen
      have hlen2 : (t1.dropWhile tplSafe).length ≤ n :=
        le_trans (dropWhile_length_le _ _) (by omega)
      exact ih Ctx.txt _ (bal_drop_txt Ctx.txt t1 ht1 rfl) hlen2 st _ rest
        ⟨htop, hne⟩ hg
    | tcode w1 t1 hw1 ht1 =>
      obtain ⟨htop, hne⟩ := hst
      have hassoc : ('{' :: w1 ++ '}' :: t1) ++ rest =
          '{' :: (w1 ++ '}' :: (t1 ++ rest)) := by simp
      have hhn : headNot '#' (w1 ++ '}' :: (t1 ++ rest)) :=
        bal_code_headNot w1 (t1 ++ rest) '}' hw1 (by decide)
      have hstep : stateRules (topS st) p
          ('{' :: (w1 ++ '}' :: (t1 ++ rest))) =
          some (K.commentPreproc, 1, Act.push S.statements) := by
        rw [htop]
        exact stepTxtLBrace p _ hhn
      rw [hassoc, runS_step1 st p '{' _ _ _ hstep,
        show applyAct (Act.push S.statements) st = S.statements :: st from rfl]
      simp only [List.length_cons, List.length_append] at hlen
      obtain ⟨q1, hq1⟩ := ih Ctx.code w1 hw1 (by omega) (S.statements :: st)
        (some '{') ('}' :: (t1 ++ rest)) ⟨Or.inr (Or.inl rfl), by simp⟩ trivial
      rw [hq1,
        runS_step1 (S.statements :: st) q1 '}' (t1 ++ rest) _ _
          (stepRBraceStatements q1 _),
        show applyAct Act.pop (S.statements :: st) = popS (S.statements :: st)
          from rfl,
        popS_cons st S.statements hne]
      exact ih Ctx.txt t1 ht1 (by omega) st (some '}') rest ⟨htop, hne⟩ hg

/-- Scanning a well-nested code fragment from the singleton `root`
stack ends with the stack unchanged. -/
theorem balRun_root (w : List Char) (hw : Bal Ctx.code w) :
    runS [S.root] none w = [S.root] := by
  obtain ⟨q, hq⟩ := balRun w.length Ctx.code w hw (Nat.le_refl _) [S.root]
    none [] ⟨Or.inl rfl, by simp⟩ trivial
  rw [List.append_nil] at hq
  rw [hq, runS_nil]

/-- Scanning a well-nested template fragment from the singleton
`txtRoot` stack ends with the stack unchanged. -/
theorem balRun_txtRoot (t : List Char) (ht : Bal Ctx.txt t) :
    runS [S.txtRoot] none t = [S.txtRoot] := by
  obtain ⟨q, hq⟩ := balRun t.length Ctx.txt t ht (Nat.le_refl _) [S.txtRoot]
    none [] ⟨rfl, by simp⟩ (by intro e he; simp at he)
  rw [List.append_nil] at hq
  rw [hq, runS_nil]

/-! ### Claim theorems -/

/-- The input `prefix{if true then "x" else "y" end}suffix`. -/
def c1_input : List Char :=
  [ 'p', 'r', 'e', 'f', 'i', 'x', '{', 'i', 'f', ' ', 't', 'r', 'u', 'e',
    ' ', 't', 'h', 'e', 'n', ' ', '"', 'x', '"', ' ', 'e', 'l', 's', 'e',
    ' ', '"', 'y', '"', ' ', 'e', 'n', 'd', '}', 's', 'u', 'f', 'f', 'i',
    'x' ]

/-- Claim C1, counterexample: the claim states that whenever `}` is
scanned with a Code-family mode on top of the stack, the scanner pops
that mode so that the mode which pushed it resumes.  On the input `[}`
from `root`, the `}` is scanned with `array` on top, yet the resulting
stack is `[template, array, root]`: the array mode is not popped and a
new mode is pushed instead. -/
theorem claim_c1_counterexample :
    runS [S.root] none ['[', '}'] = [S.template, S.array, S.root] ∧
    runS [S.root] none ['[', '}'] ≠ [S.root] := by
  constructor
  · rfl
  · decide

/-- Claim C1, amended: a `}` scanned in `statements` or `object` mode
pops that mode (returning to the mode that pushed it); a `}` scanned in
`root`, `array` or `expression` mode emits the `}` token and pushes
`template` mode, so the following text is treated as literal template
text.  In particular, `prefix{if true then "x" else "y" end}suffix`
scanned from the template-text mode (`TxtPletLexer`'s root) yields
literal text `prefix`, code tokens for the `if ... end` expression, and
after the closing `}` the scanner is back in template-text mode and
`suffix` is emitted as literal text. -/
theorem claim_c1 :
    scan [S.txtRoot] none c1_input =
      [ ⟨K.other, ['p', 'r', 'e', 'f', 'i', 'x']⟩,
        ⟨K.commentPreproc, ['{']⟩,
        ⟨K.keyword, ['i', 'f']⟩,
        ⟨K.whitespace, [' ']⟩,
        ⟨K.keywordConstant, ['t', 'r', 'u', 'e']⟩,
        ⟨K.whitespace, [' ']⟩,
        ⟨K.keyword, ['t', 'h', 'e', 'n']⟩,
        ⟨K.whitespace, [' ']⟩,
        ⟨K.str, ['"']⟩,
        ⟨K.str, ['x']⟩,
        ⟨K.str, ['"']⟩,
        ⟨K.whitespace, [' ']⟩,
        ⟨K.keyword, ['e', 'l', 's', 'e']⟩,
        ⟨K.whitespace, [' ']⟩,
        ⟨K.str, ['"']⟩,
        ⟨K.str, ['y']⟩,
        ⟨K.str, ['"']⟩,
        ⟨K.whitespace, [' ']⟩,
        ⟨K.keyword, ['e', 'n', 'd']⟩,
        ⟨K.commentPreproc, ['}']⟩,
        ⟨K.other, ['s', 'u', 'f', 'f', 'i', 'x']⟩ ] ∧
    runS [S.txtRoot] none c1_input = [S.txtRoot] ∧
    (∀ (p : Option Char) (cs : List Char),
      stateRules S.statements p ('}' :: cs) =
        some (K.commentPreproc, 1, Act.pop)) ∧
    (∀ (p : Option Char) (cs : List Char),
      stateRules S.object p ('}' :: cs) = some (K.punctuation, 1, Act.pop)) ∧
    (∀ (p : Option Char) (cs : List Char),
      stateRules S.root p ('}' :: cs) =
        some (K.commentPreproc, 1, Act.push S.template)) ∧
    (∀ (p : Option Char) (cs : List Char),
      stateRules S.array p ('}' :: cs) =
        some (K.commentPreproc, 1, Act.push S.template)) ∧
    (∀ (p : Option Char) (cs : List Char),
      stateRules S.expression p ('}' :: cs) =
        some (K.commentPreproc, 1, Act.push S.template)) := by
  refine ⟨rfl, rfl, fun p cs => rfl, fun p cs => rfl, fun p cs => rfl,
    fun p cs => rfl, fun p cs => rfl⟩

/-- Claim C2: for every finite input, every initial mode stack and
every previous character, concatenating the matched spans of the
emitted tokens, in order, reproduces the input exactly. -/
theorem claim_c2 (st : List S) (p : Option Char) (l : List Char) :
    spansJoin (scan st p l) = l :=
  scan_spans st p l

/-- Claim C3: every scan terminates having consumed the whole input
through a finite token sequence: every emitted token spans at least one
character, there are at most `length input` tokens, the span lengths
sum to exactly the input length, and when no rule of the active mode
matches, the scanner advances exactly one character and emits one
single-unit unclassified error token. -/
theorem claim_c3 (st : List S) (p : Option Char) (l : List Char) :
    (∀ t ∈ scan st p l, 1 ≤ t.span.length) ∧
    (scan st p l).length ≤ l.length ∧
    ((scan st p l).map fun t => t.span.length).sum = l.length ∧
    (∀ c cs, l = c :: cs → stateRules (topS st) p l = none →
      scan st p l = ⟨K.error, [c]⟩ :: scan st (some c) cs) := by
  refine ⟨fun t ht => scanAux_tok_pos l.length st p l t ht,
    scanAux_count l.length st p l, ?_, ?_⟩
  · have h := scan_spans st p l
    calc ((scan st p l).map fun t => t.span.length).sum
        = (spansJoin (scan st p l)).length := by
          simp only [spansJoin, List.length_flatten, List.map_map]
          rfl
      _ = l.length := by rw [h]
  · intro c cs hl hnone
    subst hl
    unfold scan
    rw [scanO_cons_none st p c cs hnone]

/-- Claim C3, witness: at a newline in verbatim mode no rule matches
(`"""` fails and `.` does not match a newline), so the scanner emits a
single-unit error token and continues. -/
theorem claim_c3_witness :
    scan [S.verbatim] none ['\n'] = [⟨K.error, ['\n']⟩] := by
  have h := (claim_c3 [S.verbatim] none ['\n']).2.2.2 '\n' [] rfl rfl
  rw [h]
  rfl

/-- The input `hello {`. -/
def c4_input : List Char := ['h', 'e', 'l', 'l', 'o', ' ', '{']

/-- Claim C4, counterexample: the claim states that the standalone
lexer starts in template-text mode, so `hello {` should begin with a
literal-text token.  The standalone `PletLexer`'s root state is
`include('command')` — code mode — so the first token of `hello {` is
an identifier (Name) token, not literal text. -/
theorem claim_c4_counterexample :
    (scan [S.root] none c4_input).head? =
      some ⟨K.name, ['h', 'e', 'l', 'l', 'o']⟩ ∧
    K.name ≠ K.other ∧ K.name ≠ K.str := by
  refine ⟨rfl, by decide, by decide⟩

/-- Claim C4, amended: the standalone `PletLexer` starts in
code/command mode, so `hello {` is tokenized as Name, Whitespace, and
a `{` that opens an object block; the template-text initial mode
belongs to `TxtPletLexer` (the `*.plet.txt` / delegation entry point),
under which `hello {` begins with the literal-text token `hello `. -/
theorem claim_c4 :
    scan [S.root] none c4_input =
      [ ⟨K.name, ['h', 'e', 'l', 'l', 'o']⟩,
        ⟨K.whitespace, [' ']⟩,
        ⟨K.punctuation, ['{']⟩ ] ∧
    runS [S.root] none c4_input = [S.object, S.root] ∧
    scan [S.txtRoot] none c4_input =
      [ ⟨K.other, ['h', 'e', 'l', 'l', 'o', ' ']⟩,
        ⟨K.commentPreproc, ['{']⟩ ] ∧
    runS [S.txtRoot] none c4_input = [S.statements, S.txtRoot] := by
  refine ⟨rfl, rfl, rfl, rfl⟩

/-- Claim C5: the mode stack is nonempty at every step of every scan
and its bottom (outermost) mode is never popped; and scanning an input
assembled only from well-nested, properly closed constructs returns
the stack to exactly its initial single-element state at end of
input, both for the code-mode root and for the template-text root. -/
theorem claim_c5 :
    (∀ (st : List S) (p : Option Char) (l : List Char), st ≠ [] →
      ∀ s ∈ (scanO st p l).visited, s ≠ [] ∧ s.getLast? = st.getLast?) ∧
    (∀ w, Bal Ctx.code w → runS [S.root] none w = [S.root]) ∧
    (∀ t, Bal Ctx.txt t → runS [S.txtRoot] none t = [S.txtRoot]) :=
  ⟨fun st p l hst => scanAux_visited l.length st p l hst,
    balRun_root, balRun_txtRoot⟩

/-- Claim C5, witness: instances of the three conjuncts at concrete
inputs — a stack visited while scanning `{` from root, the balanced
code input `()`, and the balanced template input `a{,}`. -/
theorem claim_c5_witness :
    ([S.object, S.root] ≠ [] ∧
      [S.object, S.root].getLast? = [S.root].getLast?) ∧
    runS [S.root] none ['(', ')'] = [S.root] ∧
    runS [S.txtRoot] none ['a', '{', ',', '}'] = [S.txtRoot] := by
  refine ⟨?_, ?_, ?_⟩
  · exact claim_c5.1 [S.root] none ['{'] (by decide) [S.object, S.root]
      (by decide)
  · exact claim_c5.2.1 ['(', ')']
      (Bal.paren [] [] (Bal.nil Ctx.code) (Bal.nil Ctx.code))
  · exact claim_c5.2.2 ['a', '{', ',', '}']
      (Bal.tchr 'a' ['{', ',', '}'] (by decide)
        (Bal.tcode [','] [] (Bal.comma [] (Bal.nil Ctx.code))
          (Bal.nil Ctx.txt)))

/-- The input `"""a{b}c"""`. -/
def c6_input : List Char :=
  ['"', '"', '"', 'a', '{', 'b', '}', 'c', '"', '"', '"']

/-- The tokens the scanner actually emits for `"""a{b}c"""` in code
mode: the verbatim content is consumed one character at a time by the
`.` rule, so it forms five single-character String tokens, not one
span. -/
def c6_actual : List Tok :=
  [ ⟨K.str, ['"', '"', '"']⟩, ⟨K.str, ['a']⟩, ⟨K.str, ['{']⟩,
    ⟨K.str, ['b']⟩, ⟨K.str, ['}']⟩, ⟨K.str, ['c']⟩,
    ⟨K.str, ['"', '"', '"']⟩ ]

/-- Claim C6, counterexample: the claim states `"""a{b}c"""` yields the
opening delimiter, ONE literal span `a{b}c`, and the closing delimiter;
the scanner actually yields five single-character String tokens for the
content, so the three-token shape is wrong. -/
theorem claim_c6_counterexample :
    scan [S.root] none c6_input = c6_actual ∧
    c6_actual ≠
      [ ⟨K.str, ['"', '"', '"']⟩, ⟨K.str, ['a', '{', 'b', '}', 'c']⟩,
        ⟨K.str, ['"', '"', '"']⟩ ] := by
  constructor
  · rfl
  · decide

/-- Claim C6, amended: `"""a{b}c"""` in code mode yields the opening
`"""`, then `a`, `{`, `b`, `}`, `c` as five single-character
string-literal tokens — no Statements or Expression mode is ever
entered and `{` has no special meaning — then the closing `"""`.  In
verbatim mode every non-newline character that does not close the
block is consumed as a one-character String token, while at a newline
no verbatim rule matches (so the spec-modelled driver consumes it as a
one-unit unclassified token without leaving verbatim mode). -/
theorem claim_c6 :
    scanO [S.root] none c6_input =
      ⟨c6_actual, [S.root],
        [ [S.root], [S.verbatim, S.root], [S.verbatim, S.root],
          [S.verbatim, S.root], [S.verbatim, S.root], [S.verbatim, S.root],
          [S.verbatim, S.root], [S.root] ]⟩ ∧
    (∀ (p : Option Char) (cs : List Char),
      stateRules S.verbatim p ('\n' :: cs) = none) ∧
    (∀ (p : Option Char) (c : Char) (cs : List Char), c ≠ '\n' → c ≠ '"' →
      stateRules S.verbatim p (c :: cs) = some (K.str, 1, Act.stay)) := by
  refine ⟨rfl, fun p cs => rfl, ?_⟩
  intro p c cs hn hq
  have ht : matchTripleQuote (c :: cs) = none := by
    simp [matchTripleQuote, hq]
  have hd : matchDot (c :: cs) = some 1 := by
    simp [matchDot, hn]
  simp [stateRules, verbatimRules, applyRules, ht, hd]

/-- Claim C6, witness: the character `a` in verbatim mode is consumed
as a one-character String token rule. -/
theorem claim_c6_witness :
    stateRules S.verbatim none ['a'] = some (K.str, 1, Act.stay) :=
  claim_c6.2.2 none 'a' [] (by decide) (by decide)

/-- The input `"a\"b"` (a double-quoted string containing a
backslash-escaped quote). -/
def c7_input : List Char :=
  '"' :: 'a' :: backslashChar :: '"' :: 'b' :: '"' :: []

/-- Claim C7, counterexample: the claim states that a `"` preceded by a
backslash does not terminate a double-quoted string.  Scanning
`"a\"b"` from code mode, the `\` is consumed as ordinary string
content and the following `"` pops QuotedString mode: `b` is then
tokenized as a Name token in code mode (the stack at that step is
`[root]`), and the final `"` re-enters string mode. -/
theorem claim_c7_counterexample :
    scanO [S.root] none c7_input =
      ⟨[ ⟨K.str, ['"']⟩, ⟨K.str, ['a', backslashChar]⟩, ⟨K.str, ['"']⟩,
          ⟨K.name, ['b']⟩, ⟨K.str, ['"']⟩ ],
        [S.string, S.root],
        [ [S.root], [S.string, S.root], [S.string, S.root], [S.root],
          [S.root], [S.string, S.root] ]⟩ ∧
    (⟨K.name, ['b']⟩ : Tok) ∈ scan [S.root] none c7_input := by
  constructor
  · rfl
  · decide

/-- Claim C7, amended: QuotedString mode has no escape handling:
literal string text extends up to the next `"` or `{` with backslash
consumed as ordinary content, and ANY `"` — escaped or not — pops the
mode. -/
theorem claim_c7 :
    (∀ (p : Option Char) (cs : List Char),
      stateRules S.string p ('"' :: cs) = some (K.str, 1, Act.pop)) ∧
    (∀ (p : Option Char) (cs : List Char),
      stateRules S.string p (backslashChar :: cs) =
        some (K.str, ((backslashChar :: cs).takeWhile strSafe).length,
          Act.stay)) := by
  constructor
  · intro p cs; rfl
  · intro p cs; exact stringRules_chunk p backslashChar cs (by decide)

/-- The input `"a{1+2}b"`. -/
def c8_input : List Char :=
  ['"', 'a', '{', '1', '+', '2', '}', 'b', '"']

/-- Claim C8: scanning `"a{1+2}b"` in code mode yields the opening `"`
(pushing QuotedString), string text `a`, a `{` pushing Statements mode,
`1+2` tokenized as Number, Operator, Number, a `}` popping back into
the same QuotedString region, string text `b`, and a closing `"`
popping QuotedString; the visited stacks document exactly this mode
evolution. -/
theorem claim_c8 :
    scanO [S.root] none c8_input =
      ⟨[ ⟨K.str, ['"']⟩, ⟨K.str, ['a']⟩, ⟨K.commentPreproc, ['{']⟩,
          ⟨K.number, ['1']⟩, ⟨K.oper, ['+']⟩, ⟨K.number, ['2']⟩,
          ⟨K.commentPreproc, ['}']⟩, ⟨K.str, ['b']⟩, ⟨K.str, ['"']⟩ ],
        [S.root],
        [ [S.root], [S.string, S.root], [S.string, S.root],
          [S.statements, S.string, S.root], [S.statements, S.string, S.root],
          [S.statements, S.string, S.root], [S.statements, S.string, S.root],
          [S.string, S.root], [S.string, S.root], [S.root] ]⟩ := by
  rfl

/-- Claim C9: rule order and word boundaries give keywords priority
without breaking longer identifiers: in code mode `if` is one Keyword
token while `iffy` is one single Name token. -/
theorem claim_c9 :
    scan [S.root] none ['i', 'f'] = [⟨K.keyword, ['i', 'f']⟩] ∧
    scan [S.root] none ['i', 'f', 'f', 'y'] =
      [⟨K.name, ['i', 'f', 'f', 'y']⟩] := by
  constructor
  · rfl
  · rfl

/-- Claim C10: a `'` that the single-quoted-string rule cannot close
(no matching closing `'` in the rest of the input) matches no rule of
any Code-family mode: the scanner emits a one-unit unclassified error
token for the lone `'`, leaves the mode stack unchanged, and tokenizes
the following characters normally in the same mode. -/
theorem claim_c10 (st : List S) (p : Option Char) (cs : List Char)
    (h1 : codeFam (topS st)) (h2 : singleQuotedClose cs = none) :
    stateRules (topS st) p (quoteChar :: cs) = none ∧
    scan st p (quoteChar :: cs) =
      ⟨K.error, [quoteChar]⟩ :: scan st (some quoteChar) cs ∧
    runS st p (quoteChar :: cs) = runS st (some quoteChar) cs := by
  have hmsq : matchSingleQuoted (quoteChar :: cs) = none := by
    simp [matchSingleQuoted, h2]
  have hcmd : applyRules command p (quoteChar :: cs) = none := by
    calc applyRules command p (quoteChar :: cs)
        = (match matchSingleQuoted (quoteChar :: cs) with
          | some n => some (K.stringSingle, n, Act.stay)
          | none => none) := rfl
      _ = none := by rw [hmsq]
  have hsr : stateRules (topS st) p (quoteChar :: cs) = none := by
    rcases h1 with h | h | h | h | h <;> rw [h] <;> exact hcmd
  refine ⟨hsr, ?_, runS_cons_none st p quoteChar cs hsr⟩
  unfold scan
  rw [scanO_cons_none st p quoteChar cs hsr]

/-- Claim C10, witness: the input `'ab` from root: the lone quote is an
error token and `ab` is scanned in the unchanged root mode. -/
theorem claim_c10_witness :
    stateRules (topS [S.root]) none (quoteChar :: ['a', 'b']) = none ∧
    scan [S.root] none (quoteChar :: ['a', 'b']) =
      ⟨K.error, [quoteChar]⟩ :: scan [S.root] (some quoteChar) ['a', 'b'] ∧
    runS [S.root] none (quoteChar :: ['a', 'b']) =
      runS [S.root] (some quoteChar) ['a', 'b'] :=
  claim_c10 [S.root] none ['a', 'b'] (Or.inl rfl) rfl

end Plet
